import Mathlib

/-!
Verification of the data-reduction pipeline in `deepcsf/reports/resnet_plot.py`.

The pipeline parses psychophysics-style trial matrices (one row per trial,
columns `[contrast, wave, angle, phase, side]`), derives per-wave sensitivity
values (inverse of the contrast of the last row per wave), converts wave
counts to spatial frequencies relative to a target image size, interpolates
onto a uniform frequency grid, and compares normalized curves against a
reference CSF via Pearson correlation and Euclidean distance.

Numbers are modelled by exact rationals; the float constant `np.pi` is the
exact rational value of the IEEE-754 double nearest to pi.  The one place
where floating-point special values matter (division by a zero wave) is
modelled by an extended value type `FVal` with infinities and NaN following
IEEE-754 rules for exact operands.  Pearson correlation and Euclidean
distance need a square root, so they live over the reals.
-/

namespace ResnetPlot

/-- The exact rational value of the IEEE-754 double `np.pi`. -/
def npPi : ℚ := 884279719003555 / 281474976710656

/-- One row of a trial matrix: fixed columns `[contrast, wave, angle, phase, side]`. -/
structure Trial where
  contrast : ℚ
  wave : ℚ
  angle : ℚ
  phase : ℚ
  side : ℚ
deriving DecidableEq, Repr, Inhabited

/-- A trial matrix: one row per trial, in original file order. -/
abbrev TrialMatrix := List Trial

/-- Model of `np.unique`: the distinct values of a list, sorted ascending. -/
def np_unique (xs : List ℚ) : List ℚ :=
  (List.insertionSort (· ≤ ·) xs).dedup

/-- Model of `_extract_sensitivity`: for each unique wave (column 1, ascending),
take the last row in original order whose wave equals it and emit the inverse of
that row's contrast (column 0). -/
def _extract_sensitivity (result_mat : TrialMatrix) : List ℚ :=
  (np_unique (result_mat.map Trial.wave)).map fun w =>
    1 / ((result_mat.filter fun r => r.wave == w).getLastD default).contrast

theorem np_unique_sorted (xs : List ℚ) : (np_unique xs).Sorted (· < ·) :=
  List.Sorted.lt_of_le
    (List.Pairwise.sublist (List.dedup_sublist _) (List.sorted_insertionSort (· ≤ ·) xs))
    (List.nodup_dedup _)

theorem np_unique_mem (xs : List ℚ) (a : ℚ) : a ∈ np_unique xs ↔ a ∈ xs := by
  rw [np_unique, List.mem_dedup, List.mem_insertionSort]

theorem filter_getLast?_spec {α : Type} (p : α → Bool) :
    ∀ l : List α, l.filter p = [] ∨
      ∃ j, ∃ hj : j < l.length, p (l.get ⟨j, hj⟩) = true ∧
        (l.filter p).getLast? = some (l.get ⟨j, hj⟩) ∧
        ∀ k, ∀ hk : k < l.length, j < k → p (l.get ⟨k, hk⟩) = false
  | [] => Or.inl rfl
  | x :: l => by
    rcases filter_getLast?_spec p l with h | ⟨j, hj, hpj, hlast, hafter⟩
    · by_cases hx : p x
      · refine Or.inr ⟨0, Nat.succ_pos _, hx, ?_, ?_⟩
        · rw [List.filter_cons_of_pos hx, h]
          rfl
        · intro k hk hk0
          match k, hk with
          | k + 1, hk =>
            have := List.filter_eq_nil_iff.mp h (l.get ⟨k, Nat.lt_of_succ_lt_succ hk⟩)
              (List.get_mem l k (Nat.lt_of_succ_lt_succ hk))
            simpa using this
      · exact Or.inl (by rw [List.filter_cons_of_neg hx, h])
    · have hne : l.filter p ≠ [] := by
        intro h0; rw [h0] at hlast; exact Option.noConfusion hlast
      have hcons : ((x :: l).filter p).getLast? = (l.filter p).getLast? := by
        by_cases hx : p x
        · rw [List.filter_cons_of_pos hx]
          rcases hne' : l.filter p with _ | ⟨a, t⟩
          · exact absurd hne' hne
          · exact List.getLast?_cons_cons
        · rw [List.filter_cons_of_neg hx]
      refine Or.inr ⟨j + 1, Nat.succ_lt_succ hj, ?_, ?_, ?_⟩
      · simpa using hpj
      · rw [hcons, hlast]
        simp
      · intro k hk hjk
        match k, hk with
        | k + 1, hk =>
          have := hafter k (Nat.lt_of_succ_lt_succ hk) (Nat.lt_of_succ_lt_succ hjk)
          simpa using this

/-- C1: sensitivity extraction returns one value per unique wave (column 1),
in strictly ascending wave order, the value for a wave being 1 / contrast of
the last row in original file order whose wave equals that wave; on the
concrete matrix [(0.5,4),(0.1,4),(0.4,8),(0.05,8)] it returns [10, 20]. -/
theorem extract_sensitivity_spec (mat : TrialMatrix) :
    ((np_unique (mat.map Trial.wave)).Sorted (· < ·) ∧
      ∀ a, a ∈ np_unique (mat.map Trial.wave) ↔ a ∈ mat.map Trial.wave) ∧
    (_extract_sensitivity mat).length = (np_unique (mat.map Trial.wave)).length ∧
    (∀ (i : ℕ) (w : ℚ), (np_unique (mat.map Trial.wave))[i]? = some w →
      ∃ j, ∃ hj : j < mat.length,
        (mat.get ⟨j, hj⟩).wave = w ∧
        (∀ k, ∀ hk : k < mat.length, j < k → (mat.get ⟨k, hk⟩).wave ≠ w) ∧
        (_extract_sensitivity mat)[i]? = some (1 / (mat.get ⟨j, hj⟩).contrast)) ∧
    _extract_sensitivity
      [⟨1/2, 4, 0, 0, 0⟩, ⟨1/10, 4, 0, 0, 0⟩, ⟨2/5, 8, 0, 0, 0⟩, ⟨1/20, 8, 0, 0, 0⟩]
      = [10, 20] := by
  refine ⟨⟨np_unique_sorted _, np_unique_mem _⟩, by simp [_extract_sensitivity], ?_, ?_⟩
  · intro i w hi
    have hw : w ∈ np_unique (mat.map Trial.wave) := List.getElem?_mem hi
    have hw' : w ∈ mat.map Trial.wave := (np_unique_mem _ w).mp hw
    obtain ⟨r, hr, hrw⟩ := List.mem_map.mp hw'
    have hne : mat.filter (fun r => r.wave == w) ≠ [] := by
      intro h0
      exact absurd (by simpa using hrw) (by simpa using List.filter_eq_nil_iff.mp h0 r hr)
    rcases filter_getLast?_spec (fun r => r.wave == w) mat with h0 | ⟨j, hj, hpj, hlast, hafter⟩
    · exact absurd h0 hne
    · refine ⟨j, hj, by simpa using hpj, ?_, ?_⟩
      · intro k hk hjk
        have := hafter k hk hjk
        simpa using this
      · rw [_extract_sensitivity, List.getElem?_map, hi]
        simp only [Option.map_some', Option.some.injEq]
        rw [List.getLastD_eq_getLast?, hlast, Option.getD_some]
  · norm_num [_extract_sensitivity, np_unique, List.insertionSort, List.orderedInsert,
      List.dedup, List.pwFilter, List.filter_cons, beq_iff_eq]

/-- Model of `wave2sf`: elementwise `(1 / e) * ((target_size / 2) / np.pi)`. -/
def wave2sf (wave : List ℚ) (target_size : ℚ) : List ℚ :=
  wave.map fun e => (1 / e) * ((target_size / 2) / npPi)

/-- C3: wave2sf maps each wave entry w with w not zero to exactly
target_size / (2 * pi) / w, elementwise; in particular on a singleton list
it returns exactly [target_size / (2 * pi) / w]. -/
theorem wave2sf_spec (wave : List ℚ) (target_size : ℚ) :
    (wave2sf wave target_size).length = wave.length ∧
    (∀ (i : ℕ) (hi : i < wave.length), wave.get ⟨i, hi⟩ ≠ 0 →
      (wave2sf wave target_size)[i]? =
        some (target_size / (2 * npPi) / wave.get ⟨i, hi⟩)) ∧
    ∀ w : ℚ, w ≠ 0 → wave2sf [w] target_size = [target_size / (2 * npPi) / w] := by
  refine ⟨by simp [wave2sf], ?_, ?_⟩
  · intro i hi _
    rw [wave2sf, List.getElem?_map, List.getElem?_eq_getElem hi]
    simp only [Option.map_some', Option.some.injEq, List.get_eq_getElem]
    ring
  · intro w _
    simp only [wave2sf, List.map_cons, List.map_nil, List.cons.injEq, and_true]
    ring

/-- An IEEE-754 double at the precision this development needs: finite values
carried exactly, plus the two infinities and NaN. -/
inductive FVal where
  | fin (q : ℚ)
  | inf
  | ninf
  | nan
deriving DecidableEq, Repr

/-- IEEE-754 multiplication on exact operands. -/
def FVal.mul : FVal → FVal → FVal
  | fin a, fin b => fin (a * b)
  | fin a, inf => if 0 < a then inf else if a < 0 then ninf else nan
  | fin a, ninf => if 0 < a then ninf else if a < 0 then inf else nan
  | inf, fin b => if 0 < b then inf else if b < 0 then ninf else nan
  | ninf, fin b => if 0 < b then ninf else if b < 0 then inf else nan
  | inf, inf => inf
  | inf, ninf => ninf
  | ninf, inf => ninf
  | ninf, ninf => inf
  | _, _ => nan

/-- IEEE-754 division on exact operands: a nonzero value divided by zero is a
signed infinity, zero divided by zero is NaN. -/
def FVal.div : FVal → FVal → FVal
  | fin a, fin b =>
      if b = 0 then (if 0 < a then inf else if a < 0 then ninf else nan)
      else fin (a / b)
  | fin _, inf => fin 0
  | fin _, ninf => fin 0
  | inf, fin b => if 0 ≤ b then inf else ninf
  | ninf, fin b => if 0 ≤ b then ninf else inf
  | _, _ => nan

/-- Model of `wave2sf` at the floating-point level: the same formula, with
IEEE-754 division and multiplication carrying infinities and NaN, and no
branch on a zero wave. -/
def wave2sfF (wave : List ℚ) (target_size : ℚ) : List FVal :=
  wave.map fun e =>
    FVal.mul (FVal.div (FVal.fin 1) (FVal.fin e))
      (FVal.div (FVal.fin (target_size / 2)) (FVal.fin npPi))

theorem npPi_pos : 0 < npPi := by norm_num [npPi]

/-- C9: wave2sf does not special-case a zero wave entry: it is total (one
output per input, no error), the division by zero propagates per IEEE-754
semantics as positive infinity at the position of the zero entry, and every
nonzero entry gets the ordinary finite value. -/
theorem wave2sfF_zero_spec (wave : List ℚ) (target_size : ℚ)
    (hts : 0 < target_size) :
    (wave2sfF wave target_size).length = wave.length ∧
    ∀ (i : ℕ) (hi : i < wave.length),
      (wave2sfF wave target_size)[i]? =
        some (if wave.get ⟨i, hi⟩ = 0 then FVal.inf
          else FVal.fin ((1 / wave.get ⟨i, hi⟩) * (target_size / 2 / npPi))) := by
  have hbase : FVal.div (FVal.fin (target_size / 2)) (FVal.fin npPi) =
      FVal.fin (target_size / 2 / npPi) := by
    rw [FVal.div]
    rw [if_neg (by exact_mod_cast npPi_pos.ne')]
  have hbasepos : 0 < target_size / 2 / npPi :=
    div_pos (div_pos hts two_pos) npPi_pos
  refine ⟨by simp [wave2sfF], ?_⟩
  intro i hi
  rw [wave2sfF, List.getElem?_map, List.getElem?_eq_getElem hi]
  simp only [Option.map_some', Option.some.injEq, List.get_eq_getElem]
  rw [hbase]
  by_cases h0 : wave[i] = 0
  · rw [if_pos h0, h0]
    rw [FVal.div, if_pos rfl, if_pos one_pos, FVal.mul, if_pos hbasepos]
  · rw [if_neg h0, FVal.div, if_neg h0, FVal.mul]

/-- Witness for C9 at the concrete input wave = [0], target_size = 4. -/
theorem wave2sfF_zero_spec_witness :
    (0 : ℚ) < 4 ∧
    ((wave2sfF [0] 4).length = ([0] : List ℚ).length ∧
      ∀ (i : ℕ) (hi : i < ([0] : List ℚ).length),
        (wave2sfF [0] 4)[i]? =
          some (if ([0] : List ℚ).get ⟨i, hi⟩ = 0 then FVal.inf
            else FVal.fin ((1 / ([0] : List ℚ).get ⟨i, hi⟩) * ((4 : ℚ) / 2 / npPi)))) :=
  ⟨by norm_num, wave2sfF_zero_spec [0] 4 (by norm_num)⟩

/-- Model of the max of a numpy array: the running maximum of its entries. -/
def np_max : List ℚ → ℚ
  | [] => 0
  | x :: xs => xs.foldl max x

/-- Model of the in-place normalisation `org_yvals /= org_yvals.max()` in
`_plot_chn_csf`: divide a curve elementwise by its own maximum. -/
def normalize_by_max (xs : List ℚ) : List ℚ :=
  xs.map fun y => y / np_max xs

theorem foldl_max_map_div (c : ℚ) (hc : 0 ≤ c) :
    ∀ (xs : List ℚ) (a : ℚ),
      ((xs.map fun y => y / c).foldl max (a / c)) = xs.foldl max a / c
  | [], _ => rfl
  | x :: xs, a => by
    simp only [List.map_cons, List.foldl_cons]
    rw [max_div_div_right hc a x]
    exact foldl_max_map_div c hc xs (max a x)

theorem np_max_map_div (xs : List ℚ) (c : ℚ) (hc : 0 ≤ c) :
    np_max (xs.map fun y => y / c) = np_max xs / c := by
  cases xs with
  | nil => simp [np_max]
  | cons x t =>
    simp only [np_max, List.map_cons]
    exact foldl_max_map_div c hc t x

/-- C5: for a non-degenerate curve (nonempty, with positive maximum), dividing
the curve elementwise by its own maximum yields a curve whose maximum is
exactly 1. -/
theorem normalize_by_max_spec (xs : List ℚ) (hne : xs ≠ [])
    (hpos : 0 < np_max xs) : np_max (normalize_by_max xs) = 1 := by
  rw [normalize_by_max, np_max_map_div xs (np_max xs) hpos.le,
    div_self hpos.ne']

/-- Witness for C5 at the concrete curve [1, 3]. -/
theorem normalize_by_max_spec_witness :
    ([1, 3] : List ℚ) ≠ [] ∧ 0 < np_max [1, 3] ∧
      np_max (normalize_by_max [1, 3]) = 1 :=
  ⟨by simp, by norm_num [np_max, max_def],
    normalize_by_max_spec [1, 3] (by simp) (by norm_num [np_max, max_def])⟩

/-- Model of `np.arange(start, stop, step)` for positive step: the values
start + step * k, for k below the count ceil((stop - start) / step). -/
def np_arange (start stop step : ℚ) : List ℚ :=
  (List.range (⌈(stop - start) / step⌉).toNat).map fun k : ℕ => start + step * (k : ℚ)

/-- The recursion of one `np.interp` query along consecutive knots: linear
interpolation inside the current segment, else move to the next one; at the
final knot the query is past the range and the last y-value is returned. -/
def np_interp_segs : List (ℚ × ℚ) → ℚ → ℚ
  | [], _ => 0
  | [(_, y0)], _ => y0
  | (x0, y0) :: (x1, y1) :: rest, x =>
      if x ≤ x1 then y0 + (y1 - y0) * (x - x0) / (x1 - x0)
      else np_interp_segs ((x1, y1) :: rest) x

/-- One query of `np.interp` on the polyline with knot abscissas xs (ascending)
and ordinates ys: queries at or before the first knot return the first
y-value, queries past the last knot return the last y-value. -/
def np_interp1 (x : ℚ) (xs ys : List ℚ) : ℚ :=
  match xs.zip ys with
  | [] => 0
  | (x0, y0) :: rest => if x ≤ x0 then y0 else np_interp_segs ((x0, y0) :: rest) x

/-- Model of `np.interp` applied to a list of query points. -/
def np_interp (qs xs ys : List ℚ) : List ℚ :=
  qs.map fun q => np_interp1 q xs ys

/-- Model of `uniform_sfs`: the uniform grid of candidate frequencies
base_sf / e for e in arange(1, target_size/2 + 0.5, 0.5) with
base_sf = (target_size/2) / np.pi, and the y-values interpolated onto it. -/
def uniform_sfs (xvals yvals : List ℚ) (target_size : ℚ) : List ℚ × List ℚ :=
  let max_xval := target_size / 2
  let base_sf := max_xval / npPi
  let new_xs := (np_arange 1 (max_xval + 1/2) (1/2)).map fun e => base_sf / e
  (new_xs, np_interp new_xs xvals yvals)

theorem np_interp_segs_all_le :
    ∀ (ps : List (ℚ × ℚ)) (x0 y0 q : ℚ),
      List.Sorted (· < ·) (((x0, y0) :: ps).map Prod.fst) →
      (∀ x ∈ ((x0, y0) :: ps).map Prod.fst, x ≤ q) →
      np_interp_segs ((x0, y0) :: ps) q =
        (((x0, y0) :: ps).map Prod.snd).getLast (by simp)
  | [], x0, y0, q, _, _ => rfl
  | (x1, y1) :: rest, x0, y0, q, hsort, hle => by
    have hx0x1 : x0 < x1 := by
      rw [List.map_cons, List.sorted_cons] at hsort
      exact hsort.1 x1 (by simp)
    cases rest with
    | nil =>
      have hx1q : x1 ≤ q := hle x1 (by simp)
      rw [np_interp_segs]
      by_cases hq : q ≤ x1
      · rw [if_pos hq, le_antisymm hq hx1q]
        rw [mul_div_assoc, div_self (sub_ne_zero.mpr hx0x1.ne'), mul_one]
        simp [List.getLast]
      · rw [if_neg hq]
        rfl
    | cons p2 r2 =>
      have hx1q : x1 < p2.1 := by
        rw [List.map_cons, List.sorted_cons] at hsort
        rw [List.map_cons, List.sorted_cons] at hsort
        exact hsort.2.1 p2.1 (by simp)
      have hq : ¬ q ≤ x1 := by
        have : p2.1 ≤ q := hle p2.1 (by simp)
        push_neg
        exact lt_of_lt_of_le hx1q this
      rw [np_interp_segs, if_neg hq]
      have hsort' : List.Sorted (· < ·) (((x1, y1) :: p2 :: r2).map Prod.fst) := by
        rw [List.map_cons, List.sorted_cons] at hsort
        exact hsort.2
      have hle' : ∀ x ∈ ((x1, y1) :: p2 :: r2).map Prod.fst, x ≤ q := by
        intro x hx
        exact hle x (by simpa using Or.inr (by simpa using hx))
      rw [np_interp_segs_all_le (p2 :: r2) x1 y1 q hsort' hle']
      refine Option.some_injective _ ?_
      rw [← List.getLast?_eq_getLast, ← List.getLast?_eq_getLast]
      simp only [List.map_cons]
      exact List.getLast?_cons_cons.symm

theorem np_arange_half_grid (n : ℕ) :
    np_arange 1 ((n : ℚ) / 2 + 1 / 2) (1 / 2) =
      (List.range (n - 1)).map fun k : ℕ => 1 + (k : ℚ) / 2 := by
  rw [np_arange]
  have h1 : (((n : ℚ) / 2 + 1 / 2) - 1) / (1 / 2) = (((n : ℤ) - 1 : ℤ) : ℚ) := by
    push_cast
    ring
  rw [h1, Int.ceil_intCast, show ((n : ℤ) - 1).toNat = n - 1 by omega]
  refine List.map_eq_map_iff.mpr ?_
  intro k _
  ring

theorem np_interp1_clamp_left (q x0 y0 : ℚ) (xs ys : List ℚ) (hq : q ≤ x0) :
    np_interp1 q (x0 :: xs) (y0 :: ys) = y0 := by
  rw [np_interp1]
  simp only [List.zip_cons_cons]
  rw [if_pos hq]

theorem np_interp1_clamp_right (q x0 y0 : ℚ) (xs ys : List ℚ)
    (hlen : xs.length = ys.length)
    (hsort : List.Sorted (· < ·) (x0 :: xs))
    (hq : ∀ x ∈ x0 :: xs, x ≤ q) :
    np_interp1 q (x0 :: xs) (y0 :: ys) = (y0 :: ys).getLast (by simp) := by
  have hzfst : ((x0, y0) :: xs.zip ys).map Prod.fst = x0 :: xs := by
    rw [List.map_cons]
    rw [List.map_fst_zip xs ys hlen.le]
  have hzsnd : ((x0, y0) :: xs.zip ys).map Prod.snd = y0 :: ys := by
    rw [List.map_cons]
    rw [List.map_snd_zip xs ys hlen.ge]
  rw [np_interp1]
  simp only [List.zip_cons_cons]
  by_cases hq0 : q ≤ x0
  · rw [if_pos hq0]
    cases xs with
    | nil =>
      have : ys = [] := List.length_eq_zero.mp hlen.symm
      simp [this]
    | cons a t =>
      have ha : a ≤ q := hq a (by simp)
      have h0a : x0 < a := by
        rw [List.sorted_cons] at hsort
        exact hsort.1 a (by simp)
      exact absurd (lt_of_lt_of_le h0a ha) (not_lt.mpr hq0)
  · rw [if_neg hq0]
    have := np_interp_segs_all_le (xs.zip ys) x0 y0 q
      (by rw [hzfst]; exact hsort) (by rw [hzfst]; exact hq)
    rw [this]
    have h1 : (((x0, y0) :: xs.zip ys).map Prod.snd) = y0 :: ys := hzsnd
    exact List.getLast_congr _ _ h1

/-- The spec's description of the uniform-grid divisors for an integer target
size n: the ascending half-step sequence 1, 1.5, 2, ... up to and including
n / 2 (empty when n / 2 < 1). -/
def spec_half_steps (n : ℕ) : List ℚ :=
  (List.range (n - 1)).map fun k : ℕ => 1 + (k : ℚ) / 2

/-- C2: for an integer target size n, the uniform grid is base / e with
base = n / 2 / pi and e ranging over the ascending half-step sequence
1, 1.5, ..., up to and including n / 2 (once nonempty, its last divisor is
exactly n / 2); the y-values are one-dimensional linear interpolation of
(xvals, yvals) at each grid point, where (for ascending knots) a query at or
below the least knot returns the first y-value and a query at or above the
greatest knot returns the last y-value. -/
theorem uniform_sfs_spec (n : ℕ) (xvals yvals : List ℚ) :
    (uniform_sfs xvals yvals (n : ℚ)).1 =
      (spec_half_steps n).map (fun e => (n : ℚ) / 2 / npPi / e) ∧
    (spec_half_steps n).Sorted (· < ·) ∧
    (∀ e ∈ spec_half_steps n, 1 ≤ e ∧ e ≤ (n : ℚ) / 2) ∧
    (2 ≤ n → (spec_half_steps n).getLast? = some ((n : ℚ) / 2)) ∧
    (uniform_sfs xvals yvals (n : ℚ)).2 =
      ((uniform_sfs xvals yvals (n : ℚ)).1).map (fun q => np_interp1 q xvals yvals) ∧
    (∀ (q x0 y0 : ℚ) (txs tys : List ℚ), txs.length = tys.length →
      List.Sorted (· < ·) (x0 :: txs) →
      (q ≤ x0 → np_interp1 q (x0 :: txs) (y0 :: tys) = y0) ∧
      ((∀ x ∈ x0 :: txs, x ≤ q) →
        np_interp1 q (x0 :: txs) (y0 :: tys) = (y0 :: tys).getLast (by simp))) := by
  refine ⟨?_, ?_, ?_, ?_, ?_, ?_⟩
  · simp only [uniform_sfs, spec_half_steps]
    rw [np_arange_half_grid]
  · rw [spec_half_steps]
    refine List.Pairwise.map _ ?_ (List.pairwise_lt_range (n - 1))
    intro a b hab
    have : (a : ℚ) < b := by exact_mod_cast hab
    linarith
  · intro e he
    obtain ⟨k, hk, rfl⟩ := List.mem_map.mp he
    have hk' : k < n - 1 := List.mem_range.mp hk
    have hk2 : (k : ℚ) + 2 ≤ n := by exact_mod_cast (by omega : k + 2 ≤ n)
    constructor
    · have : (0 : ℚ) ≤ k := Nat.cast_nonneg k
      linarith
    · linarith
  · intro h2
    rw [spec_half_steps, show n - 1 = (n - 2) + 1 by omega, List.range_succ,
      List.map_append, List.map_singleton, List.getLast?_concat]
    congr 1
    rw [Nat.cast_sub h2]
    push_cast
    ring
  · simp [uniform_sfs, np_interp]
  · intro q x0 y0 txs tys hlen hsort
    exact ⟨fun h => np_interp1_clamp_left q x0 y0 txs tys h,
      fun h => np_interp1_clamp_right q x0 y0 txs tys hlen hsort h⟩

/-- The summary record `_extract_data` builds per test condition: the unique
waves, their frequency equivalents (halved), the uniform frequency grid
(halved), the raw sensitivity curve and the curve interpolated onto the
uniform grid.  The source also creates `accuracies` and `contrasts_waves`
entries, but leaves both as empty dictionaries; they carry no data. -/
structure DataSummary where
  wave : List ℚ
  sf : List ℚ
  sf_int : List ℚ
  sens_all : List ℚ
  sens_all_int : List ℚ
deriving DecidableEq, Repr

/-- Model of `_extract_data`. -/
def _extract_data (result_mat : TrialMatrix) (target_size : ℚ) : DataSummary :=
  let wave := np_unique (result_mat.map Trial.wave)
  let sens_all := _extract_sensitivity result_mat
  let int_pair := uniform_sfs wave sens_all target_size
  { wave := wave
    sf := (wave2sf wave target_size).map fun q => q / 2
    sf_int := (wave2sf int_pair.1 target_size).map fun q => q / 2
    sens_all := sens_all
    sens_all_int := int_pair.2 }

/-- C4: the halving that approximates a 1-degree field of view is applied to
every mapped frequency of a summary record: the sf field is
wave2sf(unique waves) divided by 2 elementwise, and the sf_int field is
wave2sf(uniform-grid x-values) divided by 2 elementwise. -/
theorem extract_data_halving (result_mat : TrialMatrix) (target_size : ℚ) :
    (_extract_data result_mat target_size).sf =
      (wave2sf (np_unique (result_mat.map Trial.wave)) target_size).map
        (fun q => q / 2) ∧
    (_extract_data result_mat target_size).sf_int =
      (wave2sf
        (uniform_sfs (np_unique (result_mat.map Trial.wave))
          (_extract_sensitivity result_mat) target_size).1 target_size).map
        (fun q => q / 2) ∧
    (∀ (i : ℕ) (x : ℚ),
      (wave2sf (np_unique (result_mat.map Trial.wave)) target_size)[i]? = some x →
      (_extract_data result_mat target_size).sf[i]? = some (x / 2)) ∧
    (∀ (i : ℕ) (x : ℚ),
      (wave2sf
        (uniform_sfs (np_unique (result_mat.map Trial.wave))
          (_extract_sensitivity result_mat) target_size).1 target_size)[i]? = some x →
      (_extract_data result_mat target_size).sf_int[i]? = some (x / 2)) := by
  refine ⟨rfl, rfl, ?_, ?_⟩
  · intro i x hx
    rw [_extract_data]
    simp only [List.getElem?_map, hx, Option.map_some']
  · intro i x hx
    rw [_extract_data]
    simp only [List.getElem?_map, hx, Option.map_some']

/-- Contiguous-substring containment on character lists (Python's `in` on
strings). -/
def containsSub (sub s : List Char) : Bool :=
  (List.range (s.length + 1)).any fun i => sub.isPrefixOf (s.drop i)

/-- The fixed area-label vocabulary. -/
def areaLabels : List String := ["area0", "area1", "area2", "area3", "area4"]

/-- Model of `_area_name_from_path`: try the labels area0 .. area4 in
ascending index order and return the first one contained in the file name,
or none. -/
def _area_name_from_path (file_name : String) : Option String :=
  (List.range 5).findSome? fun area_ind =>
    if containsSub ("area" ++ toString area_ind).data file_name.data
    then some ("area" ++ toString area_ind) else none

theorem findSome?_if_eq_find? {α β : Type} (g : α → β) (p : α → Bool) :
    ∀ l : List α,
      (l.findSome? fun a => if p a then some (g a) else none) = (l.find? p).map g
  | [] => rfl
  | a :: l => by
    by_cases ha : p a
    · rw [List.findSome?_cons, if_pos ha, List.find?_cons_of_pos _ ha]
      rfl
    · rw [List.findSome?_cons, if_neg ha, List.find?_cons_of_neg _ ha]
      exact findSome?_if_eq_find? g p l

/-- C7: for every filename, area-label derivation tests containment of the
fixed labels "area0".."area4" in ascending index order and returns the first
label contained in the filename; if none is contained it returns none (it is
a total function, never an error). -/
theorem area_name_from_path_spec (file_name : String) :
    _area_name_from_path file_name =
      areaLabels.find? (fun l => containsSub l.data file_name.data) ∧
    ((∀ l ∈ areaLabels, containsSub l.data file_name.data = false) →
      _area_name_from_path file_name = none) := by
  have hmain : _area_name_from_path file_name =
      areaLabels.find? (fun l => containsSub l.data file_name.data) := by
    rw [_area_name_from_path,
      findSome?_if_eq_find? (fun i => "area" ++ toString i)
        (fun i => containsSub ("area" ++ toString i).data file_name.data)]
    rw [show areaLabels = (List.range 5).map (fun i => "area" ++ toString i) from rfl]
    rw [List.find?_map]
    rfl
  refine ⟨hmain, fun hnone => ?_⟩
  rw [hmain, List.find?_eq_none]
  intro l hl
  rw [hnone l hl]
  exact Bool.false_ne_true

/-- One channel directory as the loader sees it: the channel name and, in the
sorted order `glob` produces, each csv file's base name with its parsed trial
matrix.  (Parsing failures propagate to the caller in the source, so a listed
file always carries a parsed matrix here.) -/
structure ChannelDir where
  name : String
  files : List (String × TrialMatrix)

/-- Model of `_load_network_results`: `dirs` lists the channel directories in
sorted order; a directory is skipped when a channel filter is given and does
not hold its name; each kept file contributes its parsed matrix tagged with
the area label of its file name; and a channel with no parsed file is left
out of the result. -/
def _load_network_results (dirs : List ChannelDir) (chns : Option (List String)) :
    List (String × List (TrialMatrix × Option String)) :=
  dirs.filterMap fun d =>
    if chns.isSome ∧ ¬ (chns.getD []).contains d.name then none
    else
      let chn_res := d.files.map fun f => (f.2, _area_name_from_path f.1)
      if 0 < chn_res.length then some (d.name, chn_res) else none

/-- C6: with a channel filter, the loader's result contains no channel whose
name is outside the filter, even when such channel directories exist on
disk; and (filter or not) a channel directory yielding zero parsed csv files
is absent from the result rather than mapped to an empty sequence: every
returned entry is nonempty and comes from a directory holding a file. -/
theorem load_network_results_spec (dirs : List ChannelDir) :
    (∀ cs : List String, ∀ e ∈ _load_network_results dirs (some cs), e.1 ∈ cs) ∧
    (∀ chns : Option (List String), ∀ e ∈ _load_network_results dirs chns,
      e.2 ≠ [] ∧ ∃ d ∈ dirs, d.name = e.1 ∧ d.files ≠ []) := by
  constructor
  · intro cs e he
    obtain ⟨d, _, hfd⟩ := List.mem_filterMap.mp he
    by_cases hmem : (some cs : Option (List String)).isSome ∧
        ¬ ((some cs : Option (List String)).getD []).contains d.name
    · rw [if_pos hmem] at hfd
      exact Option.noConfusion hfd
    · rw [if_neg hmem] at hfd
      push_neg at hmem
      have hname : cs.contains d.name = true := by
        simpa using hmem (by simp)
      by_cases hlen : 0 < (d.files.map fun f => (f.2, _area_name_from_path f.1)).length
      · rw [if_pos hlen] at hfd
        have he1 : e.1 = d.name := by
          rw [← Option.some_inj.mp hfd]
        rw [he1]
        simpa using hname
      · rw [if_neg hlen] at hfd
        exact Option.noConfusion hfd
  · intro chns e he
    obtain ⟨d, hd, hfd⟩ := List.mem_filterMap.mp he
    by_cases hmem : chns.isSome ∧ ¬ (chns.getD []).contains d.name
    · rw [if_pos hmem] at hfd
      exact Option.noConfusion hfd
    · rw [if_neg hmem] at hfd
      by_cases hlen : 0 < (d.files.map fun f => (f.2, _area_name_from_path f.1)).length
      · rw [if_pos hlen] at hfd
        obtain rfl := Option.some_inj.mp hfd
        refine ⟨?_, d, hd, rfl, ?_⟩
        · intro h0
          have h0' : (d.files.map fun f => (f.2, _area_name_from_path f.1)) = [] := h0
          rw [h0'] at hlen
          simp at hlen
        · intro h0
          rw [h0] at hlen
          simp at hlen
      · rw [if_neg hlen] at hfd
        exact Option.noConfusion hfd

/-- The arithmetic mean of a list of reals. -/
noncomputable def listMean (xs : List ℝ) : ℝ := xs.sum / xs.length

/-- The sum of squared deviations from the mean.  It vanishes exactly on
constant curves, so its non-vanishing is the non-degeneracy condition of
Pearson correlation. -/
noncomputable def devSqSum (xs : List ℝ) : ℝ :=
  (xs.map fun x => (x - listMean xs) ^ 2).sum

/-- The statistic `scipy.stats.pearsonr` returns: the sum of products of
deviations over the product of the two root-sum-square deviations. -/
noncomputable def pearsonr (xs ys : List ℝ) : ℝ :=
  ((xs.zip ys).map fun p => (p.1 - listMean xs) * (p.2 - listMean ys)).sum /
    (Real.sqrt (devSqSum xs) * Real.sqrt (devSqSum ys))

/-- Euclidean distance between two curves: `np.linalg.norm` of the
elementwise difference. -/
noncomputable def euclidean_dist (xs ys : List ℝ) : ℝ :=
  Real.sqrt (((xs.zip ys).map fun p => (p.1 - p.2) ^ 2).sum)

/-- The running maximum of a list of reals (numpy's max). -/
noncomputable def np_maxR : List ℝ → ℝ
  | [] => 0
  | x :: xs => xs.foldl max x

/-- Normalisation of a real curve by its own maximum, as `_plot_chn_csf`
applies to both the interpolated model curve and the reference curve. -/
noncomputable def normalize_by_maxR (xs : List ℝ) : List ℝ :=
  xs.map fun y => y / np_maxR xs

theorem zip_self_eq_map {α : Type} : ∀ xs : List α, xs.zip xs = xs.map fun x => (x, x)
  | [] => rfl
  | x :: xs => by rw [List.zip_cons_cons, zip_self_eq_map xs, List.map_cons]

theorem devSqSum_nonneg (xs : List ℝ) : 0 ≤ devSqSum xs := by
  refine List.sum_nonneg ?_
  intro x hx
  obtain ⟨y, _, rfl⟩ := List.mem_map.mp hx
  positivity

theorem pearsonr_self (xs : List ℝ) (h : devSqSum xs ≠ 0) : pearsonr xs xs = 1 := by
  rw [pearsonr]
  have hnum : ((xs.zip xs).map fun p => (p.1 - listMean xs) * (p.2 - listMean xs)).sum
      = devSqSum xs := by
    rw [zip_self_eq_map, List.map_map, devSqSum]
    congr 1
    refine List.map_eq_map_iff.mpr ?_
    intro x _
    simp [Function.comp]
    ring
  rw [hnum, Real.mul_self_sqrt (devSqSum_nonneg xs), div_self h]

theorem euclidean_dist_self (xs : List ℝ) : euclidean_dist xs xs = 0 := by
  rw [euclidean_dist]
  have hzero : ((xs.zip xs).map fun p => (p.1 - p.2) ^ 2).sum = 0 := by
    rw [zip_self_eq_map, List.map_map]
    have : (xs.map ((fun p : ℝ × ℝ => (p.1 - p.2) ^ 2) ∘ fun x => (x, x))).sum
        = (xs.map fun _ => (0 : ℝ)).sum := by
      congr 1
      refine List.map_eq_map_iff.mpr ?_
      intro x _
      simp [Function.comp]
    rw [this]
    simp
  rw [hzero, Real.sqrt_zero]

/-- C8: whenever the interpolated model curve and the interpolated reference
curve are identical after each is normalized by its own maximum, and the
common normalized curve is not constant (its squared deviations from the mean
do not all vanish), the comparator's Pearson correlation between them is
exactly 1 and their Euclidean distance is exactly 0. -/
theorem comparator_identical_curves (model ref : List ℝ)
    (hid : normalize_by_maxR model = normalize_by_maxR ref)
    (hnc : devSqSum (normalize_by_maxR model) ≠ 0) :
    pearsonr (normalize_by_maxR model) (normalize_by_maxR ref) = 1 ∧
    euclidean_dist (normalize_by_maxR model) (normalize_by_maxR ref) = 0 := by
  rw [← hid]
  exact ⟨pearsonr_self _ hnc, euclidean_dist_self _⟩

/-- Witness for C8 at the concrete curves [1, 2] and [2, 4], both of which
normalize to [1/2, 1]. -/
theorem comparator_identical_curves_witness :
    (normalize_by_maxR [1, 2] = normalize_by_maxR [2, 4] ∧
      devSqSum (normalize_by_maxR [1, 2]) ≠ 0) ∧
    pearsonr (normalize_by_maxR [1, 2]) (normalize_by_maxR [2, 4]) = 1 ∧
    euclidean_dist (normalize_by_maxR [1, 2]) (normalize_by_maxR [2, 4]) = 0 := by
  have hid : normalize_by_maxR [(1 : ℝ), 2] = normalize_by_maxR [2, 4] := by
    norm_num [normalize_by_maxR, np_maxR, max_def]
  have hnc : devSqSum (normalize_by_maxR [(1 : ℝ), 2]) ≠ 0 := by
    norm_num [devSqSum, listMean, normalize_by_maxR, np_maxR, max_def]
  exact ⟨⟨hid, hnc⟩, comparator_identical_curves [1, 2] [2, 4] hid hnc⟩

/-- What one channel's pass of `_plot_chn_csf` adds to the figure, at the
granularity claim C10 is about: which channel it draws, and whether the
reference overlay together with its correlation/distance scores was drawn —
`_plot_chn_csf` draws them exactly when its `model_name` option is not None. -/
structure RenderRecord where
  chn : String
  has_reference : Bool
deriving DecidableEq, Repr

/-- Model of `_plot_chn_csf` at the figure level: draw onto the figure passed
as `old_fig` (a fresh figure when none), appending one render record. -/
def _plot_chn_csf (chn_name : String) (model_name : Option String)
    (old_fig : Option (List RenderRecord)) : List RenderRecord :=
  (old_fig.getD []) ++ [⟨chn_name, model_name.isSome⟩]

/-- Model of the loop of `plot_csf_areas` over the channels of the network
summary: starting with no figure, render each channel in order; once a figure
exists, each later call receives it as `old_fig` and has `model_name` forced
to None — the kwargs dictionary is mutated in place, so the None persists for
every remaining channel. -/
def plot_csf_areas_loop : List String → Option String →
    Option (List RenderRecord) → Option (List RenderRecord)
  | [], _, fig => fig
  | c :: rest, model_name, none =>
      plot_csf_areas_loop rest model_name (some (_plot_chn_csf c model_name none))
  | c :: rest, _, some fig =>
      plot_csf_areas_loop rest none (some (_plot_chn_csf c none (some fig)))

/-- Model of `plot_csf_areas` after loading and summarising: fold the render
loop over the channel names of the summary, in order. -/
def plot_csf_areas (chns : List String) (model_name : Option String) :
    Option (List RenderRecord) :=
  plot_csf_areas_loop chns model_name none

theorem plot_csf_areas_loop_some :
    ∀ (rest : List String) (mn : Option String) (fig : List RenderRecord),
      plot_csf_areas_loop rest mn (some fig) =
        some (fig ++ rest.map fun d => ⟨d, false⟩)
  | [], _, fig => by simp [plot_csf_areas_loop]
  | c :: rest, mn, fig => by
    rw [plot_csf_areas_loop, plot_csf_areas_loop_some rest none _]
    simp [_plot_chn_csf]

/-- C10: the reference comparison applies to at most the first channel: for
every nonempty channel summary, the final figure renders the channels in
their order, the first one with the caller's model_name option (so a
reference overlay and scores exactly when one was given), while every channel
after the first is drawn onto the already-existing figure with model_name
forced to None, hence with no reference overlay and no correlation/distance
scores. -/
theorem plot_csf_areas_reference_only_first (c : String) (rest : List String)
    (model_name : Option String) :
    plot_csf_areas (c :: rest) model_name =
      some (⟨c, model_name.isSome⟩ :: rest.map fun d => ⟨d, false⟩) := by
  rw [plot_csf_areas, plot_csf_areas_loop, plot_csf_areas_loop_some]
  simp [_plot_chn_csf]

end ResnetPlot
